import Mathlib

/-!
Verification development for the SalesDuo backend (src/index.js).

The two subsystems under study are embedded as pure functions over
character lists:

* the Response Normalizer: the helper named extractJSON in the source
  (code-fence stripping, trimming, greedy brace-span selection, JSON
  parsing) together with the optimize route's fallback path;
* the Acquisition Engine: the bullet extraction pipeline of
  page.evaluate and the scrape route's success and error classification.

JavaScript strings are modelled as List Char.  Awaited operations that
may reject are modelled with Except.
-/

/-! ## Characters used symbolically

Brace, backtick, double quote and backslash characters are introduced
through Char.ofNat so that they can be written uniformly everywhere.
-/

def obrace : Char := Char.ofNat 123

def cbrace : Char := Char.ofNat 125

def btick : Char := Char.ofNat 96

def dquote : Char := Char.ofNat 34

def bslash : Char := Char.ofNat 92

/-- Whitespace recognised by the model of the JavaScript trim: the six
ASCII whitespace characters (space, tab, line feed, carriage return,
vertical tab, form feed).  The JavaScript trim also strips a handful of
rarer Unicode space characters; inputs are modelled over this ASCII
set. -/
def isSp (c : Char) : Bool :=
  c == ' ' || c == '\t' || c == '\n' || c == '\r' ||
  c == Char.ofNat 11 || c == Char.ofNat 12

/-! ## Global replacement with the empty string

The source runs text.replace with two global regular expressions whose
patterns are the literal strings of a fenced code block marker: first
the seven character marker with the json language tag, case
insensitively, then the bare three character marker.  Global
replacement by the empty string is a single left to right
non-overlapping scan; it is modelled by delGo below, where the skip
counter carries how many characters of a recognised occurrence still
have to be dropped. -/

/-- Does the pattern list match a prefix of the input, character
comparisons taken from eq? -/
def matchPref (eq : Char → Char → Bool) : List Char → List Char → Bool
  | [], _ => true
  | _ :: _, [] => false
  | p :: ps, c :: cs => eq p c && matchPref eq ps cs

/-- One left to right scan deleting every non-overlapping occurrence of
the pattern p :: ps.  The first argument is the number of characters of
a recognised occurrence still to be skipped. -/
def delGo (eq : Char → Char → Bool) (p : Char) (ps : List Char) :
    Nat → List Char → List Char
  | _, [] => []
  | 0, c :: cs =>
      if eq p c && matchPref eq ps cs then delGo eq p ps ps.length cs
      else c :: delGo eq p ps 0 cs
  | k + 1, _ :: cs => delGo eq p ps k cs

/-- Delete every occurrence of the pattern, the model of a global
replace by the empty string. -/
def deleteAll (eq : Char → Char → Bool) (pat : List Char) (s : List Char) :
    List Char :=
  match pat with
  | [] => s
  | p :: ps => delGo eq p ps 0 s

/-- Character comparison used by the case sensitive fence pattern. -/
def eqCS (p c : Char) : Bool := p == c

/-- Character comparison realising the case insensitivity of the fenced
json marker: the regular expression flag i lets each letter of the
pattern also match its upper case form, while the backtick only matches
itself. -/
def eqCI (p c : Char) : Bool :=
  p == c || (p == 'j' && c == 'J') || (p == 's' && c == 'S') ||
  (p == 'o' && c == 'O') || (p == 'n' && c == 'N')

/-- The pattern of the opening fence with json tag. -/
def fenceJson : List Char := [btick, btick, btick, 'j', 's', 'o', 'n']

/-- The pattern of a bare fence marker. -/
def fencePlain : List Char := [btick, btick, btick]

/-- The code-fence stripping of extractJSON: first delete every
occurrence of the json-tagged fence case insensitively, then every
occurrence of the bare fence. -/
def stripFences (s : List Char) : List Char :=
  deleteAll eqCS fencePlain (deleteAll eqCI fenceJson s)

/-! ## Trimming -/

/-- Remove leading whitespace, as the left half of the JavaScript
trim. -/
def ltrim (s : List Char) : List Char := s.dropWhile isSp

/-- Remove trailing whitespace, as the right half of the JavaScript
trim. -/
def rtrim (s : List Char) : List Char := (s.reverse.dropWhile isSp).reverse

/-- The JavaScript trim: whitespace removed from both ends. -/
def trim (s : List Char) : List Char := rtrim (ltrim s)

/-! ## Basic facts about matchPref and delGo -/

theorem matchPref_append (eq : Char → Char → Bool) :
    ∀ (pat x y : List Char), matchPref eq pat x = true →
      matchPref eq pat (x ++ y) = true := by
  intro pat
  induction pat with
  | nil => intro x y _; rfl
  | cons p ps ih =>
      intro x y h
      cases x with
      | nil => simp [matchPref] at h
      | cons c cs =>
          simp only [matchPref, Bool.and_eq_true] at h ⊢
          exact ⟨h.1, ih cs y h.2⟩

theorem matchPref_length (eq : Char → Char → Bool) :
    ∀ (pat x : List Char), matchPref eq pat x = true →
      pat.length ≤ x.length := by
  intro pat
  induction pat with
  | nil => intro x _; simp
  | cons p ps ih =>
      intro x h
      cases x with
      | nil => simp [matchPref] at h
      | cons c cs =>
          simp only [matchPref, Bool.and_eq_true] at h
          have := ih cs h.2
          simp [List.length_cons]
          omega

theorem matchPref_of_append (eq : Char → Char → Bool) :
    ∀ (pat x y : List Char), pat.length ≤ x.length →
      matchPref eq pat (x ++ y) = true → matchPref eq pat x = true := by
  intro pat
  induction pat with
  | nil => intro x y _ _; rfl
  | cons p ps ih =>
      intro x y hle h
      cases x with
      | nil => simp at hle
      | cons c cs =>
          simp only [List.cons_append, matchPref, Bool.and_eq_true] at h ⊢
          refine ⟨h.1, ih cs y ?_ h.2⟩
          simpa using hle

/-- Every character inspected by a successful pattern match is related
by eq to some pattern character. -/
theorem matchPref_take_hit (eq : Char → Char → Bool) :
    ∀ (pat x : List Char), matchPref eq pat x = true →
      ∀ c ∈ x.take pat.length, ∃ p ∈ pat, eq p c = true := by
  intro pat
  induction pat with
  | nil => intro x _ c hc; simp at hc
  | cons p ps ih =>
      intro x h c hc
      cases x with
      | nil => simp [matchPref] at h
      | cons a as =>
          simp only [matchPref, Bool.and_eq_true] at h
          simp only [List.length_cons, List.take_succ_cons, List.mem_cons] at hc
          rcases hc with rfl | hc
          · exact ⟨p, List.mem_cons_self .., h.1⟩
          · obtain ⟨q, hq, hqe⟩ := ih as h.2 c hc
            exact ⟨q, List.mem_cons_of_mem _ hq, hqe⟩

/-- A character is hit by a pattern if some pattern character is
related to it by the comparison. -/
def Hit (eq : Char → Char → Bool) (pat : List Char) (c : Char) : Prop :=
  ∃ q ∈ pat, eq q c = true

theorem delGo_nil (eq : Char → Char → Bool) (p : Char) (ps : List Char)
    (k : Nat) : delGo eq p ps k [] = [] := by cases k <;> rfl

theorem delGo_zero_cons (eq : Char → Char → Bool) (p : Char) (ps : List Char)
    (c : Char) (cs : List Char) :
    delGo eq p ps 0 (c :: cs) =
      if (eq p c && matchPref eq ps cs) = true then delGo eq p ps ps.length cs
      else c :: delGo eq p ps 0 cs := rfl

theorem delGo_succ_cons (eq : Char → Char → Bool) (p : Char) (ps : List Char)
    (k : Nat) (c : Char) (cs : List Char) :
    delGo eq p ps (k + 1) (c :: cs) = delGo eq p ps k cs := rfl

theorem delGo_sublist (eq : Char → Char → Bool) (p : Char) (ps : List Char) :
    ∀ (s : List Char) (k : Nat), List.Sublist (delGo eq p ps k s) s := by
  intro s
  induction s with
  | nil => intro k; rw [delGo_nil]
  | cons c cs ih =>
      intro k
      cases k with
      | zero =>
          rw [delGo_zero_cons]
          by_cases h : (eq p c && matchPref eq ps cs) = true
          · rw [if_pos h]
            exact (ih ps.length).trans (List.sublist_cons_self c cs)
          · rw [if_neg h]
            exact (ih 0).cons₂ c
      | succ k =>
          rw [delGo_succ_cons]
          exact (ih k).trans (List.sublist_cons_self c cs)

theorem matchPref_false_of_append (eq : Char → Char → Bool)
    (pat x y : List Char) (h : matchPref eq pat (x ++ y) = false) :
    matchPref eq pat x = false := by
  cases hx : matchPref eq pat x with
  | false => rfl
  | true => rw [matchPref_append eq pat x y hx] at h; exact absurd h (by simp)

/-- Deleting occurrences never touches the part after a character that
the pattern cannot hit: the scan decomposes at such a boundary. -/
theorem delGo_append_head (eq : Char → Char → Bool) (p : Char) (ps : List Char)
    (b : Char) (B : List Char) (hb : ¬ Hit eq (p :: ps) b) :
    ∀ (A : List Char) (k : Nat), k ≤ A.length →
      delGo eq p ps k (A ++ b :: B) =
        delGo eq p ps k A ++ delGo eq p ps 0 (b :: B) := by
  intro A
  induction A with
  | nil =>
      intro k hk
      have hk0 : k = 0 := by simpa using hk
      subst hk0
      rw [List.nil_append, delGo_nil, List.nil_append]
  | cons c cs ih =>
      intro k hk
      cases k with
      | succ k =>
          rw [List.cons_append, delGo_succ_cons, delGo_succ_cons]
          exact ih k (by simp at hk; omega)
      | zero =>
          rw [List.cons_append, delGo_zero_cons, delGo_zero_cons]
          cases hpc : eq p c with
          | false =>
              simp only [Bool.false_and]
              rw [if_neg (by simp), if_neg (by simp), ih 0 (Nat.zero_le _),
                List.cons_append]
          | true =>
              simp only [Bool.true_and]
              cases hm : matchPref eq ps (cs ++ b :: B) with
              | true =>
                  by_cases hlen : ps.length ≤ cs.length
                  · have hm2 : matchPref eq ps cs = true :=
                      matchPref_of_append eq ps cs (b :: B) hlen hm
                    rw [hm2, if_pos rfl, if_pos rfl, ih ps.length hlen]
                  · exfalso
                    apply hb
                    have hbmem : b ∈ (cs ++ b :: B).take ps.length := by
                      rw [List.take_append_eq_append_take]
                      refine List.mem_append_right _ ?_
                      cases h : ps.length - cs.length with
                      | zero => omega
                      | succ m => simp
                    obtain ⟨q, hq, hqe⟩ :=
                      matchPref_take_hit eq ps _ hm b hbmem
                    exact ⟨q, List.mem_cons_of_mem _ hq, hqe⟩
              | false =>
                  have hm2 : matchPref eq ps cs = false :=
                    matchPref_false_of_append eq ps cs (b :: B) hm
                  rw [hm2, if_neg (by simp), if_neg (by simp),
                    ih 0 (Nat.zero_le _), List.cons_append]

/-- The mirror image: the scan also decomposes right after a character
that the pattern cannot hit. -/
theorem delGo_append_last (eq : Char → Char → Bool) (p : Char) (ps : List Char)
    (a : Char) (B : List Char) (ha : ¬ Hit eq (p :: ps) a) :
    ∀ (A : List Char) (k : Nat), k ≤ A.length + 1 →
      delGo eq p ps k (A ++ a :: B) =
        delGo eq p ps k (A ++ [a]) ++ delGo eq p ps 0 B := by
  have hpa : eq p a = false := by
    cases h : eq p a with
    | false => rfl
    | true => exact absurd ⟨p, List.mem_cons_self .., h⟩ ha
  intro A
  induction A with
  | nil =>
      intro k hk
      have hk01 : k = 0 ∨ k = 1 := by simp at hk; omega
      rcases hk01 with rfl | rfl
      · rw [List.nil_append, List.nil_append, delGo_zero_cons,
          delGo_zero_cons, hpa]
        simp only [Bool.false_and]
        rw [if_neg (by simp), if_neg (by simp), delGo_nil, List.cons_append,
          List.nil_append]
      · rw [List.nil_append, List.nil_append, delGo_succ_cons,
          delGo_succ_cons, delGo_nil, List.nil_append]
  | cons c cs ih =>
      intro k hk
      cases k with
      | succ k =>
          rw [List.cons_append, List.cons_append, delGo_succ_cons,
            delGo_succ_cons]
          exact ih k (by simp at hk; omega)
      | zero =>
          rw [List.cons_append, List.cons_append, delGo_zero_cons,
            delGo_zero_cons]
          cases hpc : eq p c with
          | false =>
              simp only [Bool.false_and]
              rw [if_neg (by simp), if_neg (by simp), ih 0 (Nat.zero_le _),
                List.cons_append]
          | true =>
              simp only [Bool.true_and]
              cases hm : matchPref eq ps (cs ++ a :: B) with
              | true =>
                  by_cases hlen : ps.length ≤ cs.length + 1
                  · have hm2 : matchPref eq ps (cs ++ [a]) = true := by
                      apply matchPref_of_append eq ps (cs ++ [a]) B
                      · simpa using hlen
                      · simpa using hm
                    rw [hm2, if_pos rfl, if_pos rfl]
                    exact ih ps.length (by simpa using hlen)
                  · exfalso
                    apply ha
                    have hamem : a ∈ (cs ++ a :: B).take ps.length := by
                      rw [List.take_append_eq_append_take]
                      refine List.mem_append_right _ ?_
                      cases h : ps.length - cs.length with
                      | zero => omega
                      | succ m => simp
                    obtain ⟨q, hq, hqe⟩ :=
                      matchPref_take_hit eq ps _ hm a hamem
                    exact ⟨q, List.mem_cons_of_mem _ hq, hqe⟩
              | false =>
                  have hm2 : matchPref eq ps (cs ++ [a]) = false := by
                    apply matchPref_false_of_append eq ps (cs ++ [a]) B
                    simpa using hm
                  rw [hm2, if_neg (by simp), if_neg (by simp),
                    ih 0 (Nat.zero_le _), List.cons_append]

/-- If the head of the pattern hits nothing in the input, the scan is
the identity. -/
theorem delGo_id (eq : Char → Char → Bool) (p : Char) (ps : List Char) :
    ∀ (s : List Char), (∀ c ∈ s, eq p c = false) →
      delGo eq p ps 0 s = s := by
  intro s
  induction s with
  | nil => intro _; rfl
  | cons c cs ih =>
      intro h
      rw [delGo_zero_cons, h c (List.mem_cons_self ..)]
      simp only [Bool.false_and]
      rw [if_neg (by simp), ih fun d hd => h d (List.mem_cons_of_mem _ hd)]

/-- A list ending in a known character, seen from its reverse. -/
theorem reverse_eq_cons_of_getLast (l : List Char) (a : Char)
    (h : l.getLast? = some a) : ∃ w, l.reverse = a :: w := by
  cases hr : l.reverse with
  | nil =>
      have : l = [] := by simpa using congrArg List.reverse hr
      subst this
      simp at h
  | cons b w =>
      refine ⟨w, ?_⟩
      have hb : b = a := by
        have h1 : l.reverse.head? = some b := by rw [hr]; rfl
        rw [List.head?_reverse, h] at h1
        exact (Option.some_inj.mp h1).symm
      rw [hb]

/-- dropWhile never crosses a character failing the predicate, wherever
that character sits. -/
theorem dropWhile_append_stop (p : Char → Bool) (b : Char)
    (hb : p b = false) :
    ∀ (A B : List Char), (A ++ b :: B).dropWhile p =
      A.dropWhile p ++ b :: B := by
  intro A B
  induction A with
  | nil => simp [List.dropWhile_cons, hb]
  | cons c cs ih =>
      rw [List.cons_append, List.dropWhile_cons, List.dropWhile_cons]
      cases hc : p c with
      | true => simpa using ih
      | false => simp

/-- Both fence deletions pass over a bracketed object unchanged and
leave the surrounding commentary on its own side of it. -/
theorem deleteAll_sandwich (eq : Char → Char → Bool) (p : Char)
    (ps : List Char) (P obj Q : List Char) (obj2 : List Char)
    (hhead : obj = obrace :: obj2) (hlast : obj.getLast? = some cbrace)
    (hop : ¬ Hit eq (p :: ps) obrace) (hcl : ¬ Hit eq (p :: ps) cbrace)
    (hobj : ∀ c ∈ obj, eq p c = false) :
    deleteAll eq (p :: ps) (P ++ obj ++ Q) =
      deleteAll eq (p :: ps) P ++ obj ++ deleteAll eq (p :: ps) Q := by
  obtain ⟨w, hw⟩ := reverse_eq_cons_of_getLast obj cbrace hlast
  have hsplit : obj = w.reverse ++ [cbrace] := by
    have h1 := congrArg List.reverse hw
    rw [List.reverse_reverse] at h1
    rw [h1, List.reverse_cons]
  show delGo eq p ps 0 (P ++ obj ++ Q) = _
  have step1 : delGo eq p ps 0 (P ++ obj ++ Q) =
      delGo eq p ps 0 P ++ delGo eq p ps 0 (obj ++ Q) := by
    rw [hhead, List.append_assoc, List.cons_append]
    exact delGo_append_head eq p ps obrace (obj2 ++ Q) hop P 0 (Nat.zero_le _)
  have step2 : delGo eq p ps 0 (obj ++ Q) = obj ++ delGo eq p ps 0 Q := by
    have h2 := delGo_append_last eq p ps cbrace Q hcl w.reverse 0
      (Nat.zero_le _)
    calc delGo eq p ps 0 (obj ++ Q)
        = delGo eq p ps 0 (w.reverse ++ cbrace :: Q) := by
          rw [hsplit, List.append_assoc, List.singleton_append]
      _ = delGo eq p ps 0 (w.reverse ++ [cbrace]) ++ delGo eq p ps 0 Q :=
          h2
      _ = delGo eq p ps 0 obj ++ delGo eq p ps 0 Q := by rw [← hsplit]
      _ = obj ++ delGo eq p ps 0 Q := by rw [delGo_id eq p ps obj hobj]
  rw [step1, step2, List.append_assoc]
  rfl

/-! ## The greedy brace span of the regular expression

The source matches the cleaned text against a regular expression whose
only possible match runs from the first opening brace to the last
closing brace.  braceSpan realises that match. -/

/-- The span selected by the regular expression: everything from the
first opening brace to the last closing brace, none when no such match
exists. -/
def braceSpan (s : List Char) : Option (List Char) :=
  let t := s.dropWhile (fun c => !(c == obrace))
  let u := (t.reverse.dropWhile (fun c => !(c == cbrace))).reverse
  if u.isEmpty then none else some u

/-- Left trimming stops at the first non-whitespace character. -/
theorem ltrim_append_stop (a : Char) (ha : isSp a = false)
    (A B : List Char) : ltrim (A ++ a :: B) = ltrim A ++ a :: B :=
  dropWhile_append_stop isSp a ha A B

/-- Right trimming stops at the last non-whitespace character. -/
theorem rtrim_append_stop (a : Char) (ha : isSp a = false)
    (A B : List Char) : rtrim (A ++ a :: B) = A ++ a :: rtrim B := by
  show ((A ++ a :: B).reverse.dropWhile isSp).reverse = _
  have h1 : (A ++ a :: B).reverse = B.reverse ++ a :: A.reverse := by
    rw [List.reverse_append, List.reverse_cons, List.append_assoc,
      List.singleton_append]
  rw [h1, dropWhile_append_stop isSp a ha B.reverse A.reverse,
    List.reverse_append, List.reverse_cons, List.reverse_reverse,
    List.append_assoc, List.singleton_append]
  rfl

theorem braceSpan_sandwich (P obj Q : List Char) (obj2 : List Char)
    (hhead : obj = obrace :: obj2) (hlast : obj.getLast? = some cbrace)
    (hP : obrace ∉ P) (hQ : cbrace ∉ Q) :
    braceSpan (P ++ obj ++ Q) = some obj := by
  obtain ⟨w, hw⟩ := reverse_eq_cons_of_getLast obj cbrace hlast
  have ht : (P ++ obj ++ Q).dropWhile (fun c => !(c == obrace)) =
      obj ++ Q := by
    rw [hhead]
    simp only [List.append_assoc, List.cons_append]
    rw [dropWhile_append_stop (fun c => !(c == obrace)) obrace (by simp) P
      (obj2 ++ Q)]
    rw [List.dropWhile_eq_nil_iff.mpr ?_]
    · rfl
    · intro c hc
      simp only [Bool.not_eq_eq_eq_not, Bool.not_true, beq_eq_false_iff_ne,
        ne_eq]
      intro hce
      exact hP (hce ▸ hc)
  have hu : ((obj ++ Q).reverse.dropWhile (fun c => !(c == cbrace))).reverse
      = obj := by
    rw [List.reverse_append, hw]
    rw [dropWhile_append_stop (fun c => !(c == cbrace)) cbrace (by simp)
      Q.reverse w]
    rw [List.dropWhile_eq_nil_iff.mpr ?_]
    · rw [List.nil_append, ← hw, List.reverse_reverse]
    · intro c hc
      simp only [Bool.not_eq_eq_eq_not, Bool.not_true, beq_eq_false_iff_ne,
        ne_eq]
      intro hce
      exact hQ (hce ▸ (List.mem_reverse.mp hc))
  show (if _ then _ else _) = _
  rw [ht, hu]
  rw [if_neg (by simp [hhead])]

/-- Trimming keeps the bracketed object intact and only shortens the
surrounding commentary. -/
theorem trim_sandwich (P obj Q : List Char) (obj2 : List Char)
    (hhead : obj = obrace :: obj2) (hlast : obj.getLast? = some cbrace) :
    ∃ P1 Q1, trim (P ++ obj ++ Q) = P1 ++ obj ++ Q1 ∧
      (∀ c, c ∈ P1 → c ∈ P) ∧ (∀ c, c ∈ Q1 → c ∈ Q) := by
  obtain ⟨w, hw⟩ := reverse_eq_cons_of_getLast obj cbrace hlast
  have hsplit : obj = w.reverse ++ [cbrace] := by
    have h1 := congrArg List.reverse hw
    rw [List.reverse_reverse] at h1
    rw [h1, List.reverse_cons]
  have hl : ltrim (P ++ obj ++ Q) = ltrim P ++ obj ++ Q := by
    conv in P ++ obj ++ Q => rw [hhead]
    simp only [List.append_assoc, List.cons_append]
    rw [ltrim_append_stop obrace (by decide) P (obj2 ++ Q), hhead]
    simp only [List.append_assoc, List.cons_append]
  have hr : rtrim (ltrim P ++ obj ++ Q) = ltrim P ++ obj ++ rtrim Q := by
    conv in ltrim P ++ obj ++ Q => rw [hsplit]
    simp only [List.append_assoc, List.singleton_append]
    rw [← List.append_assoc (ltrim P) w.reverse,
      rtrim_append_stop cbrace (by decide) (ltrim P ++ w.reverse) Q, hsplit]
    simp only [List.append_assoc, List.singleton_append]
  refine ⟨ltrim P, rtrim Q, ?_, ?_, ?_⟩
  · show rtrim (ltrim (P ++ obj ++ Q)) = _
    rw [hl, hr]
  · intro c hc
    exact (List.dropWhile_sublist isSp).subset hc
  · intro c hc
    show c ∈ Q
    have hc2 : c ∈ Q.reverse.dropWhile isSp := List.mem_reverse.mp hc
    have := (List.dropWhile_sublist isSp).subset hc2
    exact List.mem_reverse.mp this

/-! ## JSON values and JSON.parse

The span selected by the regular expression is handed to JSON.parse.
The parser below follows the JSON grammar that JSON.parse accepts:
objects, arrays, strings with escapes, numbers, the three literals,
with the four JSON whitespace characters between tokens, and the whole
input consumed.  Numbers are kept as their lexemes, since only the
shape of the parsed value matters to the routes under study. -/

/-- Parsed JSON values. -/
inductive Json where
  | null : Json
  | bool (b : Bool) : Json
  | num (lexeme : List Char) : Json
  | str (s : List Char) : Json
  | arr (elems : List Json) : Json
  | obj (members : List (List Char × Json)) : Json

/-- Is the value a JSON object? -/
def Json.isObj : Json → Bool
  | .obj _ => true
  | _ => false

/-- The four whitespace characters of the JSON grammar. -/
def jsonWs (c : Char) : Bool :=
  c == ' ' || c == '\t' || c == '\n' || c == '\r'

/-- Skip JSON whitespace. -/
def skipWs (s : List Char) : List Char := s.dropWhile jsonWs

def isDigit (c : Char) : Bool := '0' ≤ c && c ≤ '9'

def isHex (c : Char) : Bool :=
  isDigit c || ('a' ≤ c && c ≤ 'f') || ('A' ≤ c && c ≤ 'F')

def hexVal (c : Char) : Nat :=
  if isDigit c then c.toNat - 48
  else if 'a' ≤ c then c.toNat - 87
  else c.toNat - 55

/-- The single character escapes of JSON strings. -/
def escChar (e : Char) : Option Char :=
  if e == dquote then some dquote
  else if e == bslash then some bslash
  else if e == '/' then some '/'
  else if e == 'b' then some (Char.ofNat 8)
  else if e == 'f' then some (Char.ofNat 12)
  else if e == 'n' then some '\n'
  else if e == 'r' then some '\r'
  else if e == 't' then some '\t'
  else none

/-- Parse the body of a string literal, the opening quote already
consumed; returns the decoded characters and the input after the
closing quote.  Rejects raw control characters, as JSON.parse does. -/
def parseStr : Nat → List Char → Option (List Char × List Char)
  | 0, _ => none
  | _ + 1, [] => none
  | fuel + 1, c :: r =>
    if c == dquote then some ([], r)
    else if c == bslash then
      match r with
      | [] => none
      | e :: r2 =>
        if e == 'u' then
          match r2 with
          | h1 :: h2 :: h3 :: h4 :: r3 =>
            if isHex h1 && isHex h2 && isHex h3 && isHex h4 then
              match parseStr fuel r3 with
              | some (cs, rest) =>
                  some (Char.ofNat
                    (4096 * hexVal h1 + 256 * hexVal h2 +
                      16 * hexVal h3 + hexVal h4) :: cs, rest)
              | none => none
            else none
          | _ => none
        else
          match escChar e with
          | some ec =>
            match parseStr fuel r2 with
            | some (cs, rest) => some (ec :: cs, rest)
            | none => none
          | none => none
    else if c.toNat < 32 then none
    else
      match parseStr fuel r with
      | some (cs, rest) => some (c :: cs, rest)
      | none => none

/-- Consume an optional fraction part and an optional exponent part,
each only when complete; returns the consumed lexeme and the rest. -/
def parseFracExp (s : List Char) : List Char × List Char :=
  let fr :=
    match s with
    | '.' :: d :: r =>
        if isDigit d then
          ('.' :: d :: r.takeWhile isDigit, r.dropWhile isDigit)
        else ([], s)
    | _ => ([], s)
  let s1 := fr.2
  match s1 with
  | e :: r =>
      if e == 'e' || e == 'E' then
        match r with
        | '+' :: d :: r2 =>
            if isDigit d then
              (fr.1 ++ e :: '+' :: d :: r2.takeWhile isDigit,
                r2.dropWhile isDigit)
            else (fr.1, s1)
        | '-' :: d :: r2 =>
            if isDigit d then
              (fr.1 ++ e :: '-' :: d :: r2.takeWhile isDigit,
                r2.dropWhile isDigit)
            else (fr.1, s1)
        | d :: r2 =>
            if isDigit d then
              (fr.1 ++ e :: d :: r2.takeWhile isDigit,
                r2.dropWhile isDigit)
            else (fr.1, s1)
        | [] => (fr.1, s1)
      else (fr.1, s1)
  | [] => (fr.1, s1)

/-- Parse a JSON number lexeme: optional minus, integer part, optional
complete fraction and exponent. -/
def parseNum (s : List Char) : Option (List Char × List Char) :=
  let sgn : List Char × List Char :=
    match s with
    | '-' :: r => (['-'], r)
    | _ => ([], s)
  match sgn.2 with
  | [] => none
  | c :: r =>
    if c == '0' then
      let fe := parseFracExp r
      some (sgn.1 ++ '0' :: fe.1, fe.2)
    else if isDigit c then
      let fe := parseFracExp (r.dropWhile isDigit)
      some (sgn.1 ++ c :: r.takeWhile isDigit ++ fe.1, fe.2)
    else none

mutual

/-- Parse one JSON value after optional whitespace. -/
def parseValue : Nat → List Char → Option (Json × List Char)
  | 0, _ => none
  | fuel + 1, s =>
    match skipWs s with
    | [] => none
    | c :: r =>
      if c == obrace then
        match skipWs r with
        | d :: r2 =>
            if d == cbrace then some (.obj [], r2)
            else
              match parseMembers fuel (skipWs r) with
              | some (ms, rest) => some (.obj ms, rest)
              | none => none
        | [] => none
      else if c == '[' then
        match skipWs r with
        | d :: r2 =>
            if d == ']' then some (.arr [], r2)
            else
              match parseElems fuel (skipWs r) with
              | some (es, rest) => some (.arr es, rest)
              | none => none
        | [] => none
      else if c == dquote then
        match parseStr (r.length + 1) r with
        | some (cs, rest) => some (.str cs, rest)
        | none => none
      else if c == 't' then
        match r with
        | 'r' :: 'u' :: 'e' :: r2 => some (.bool true, r2)
        | _ => none
      else if c == 'f' then
        match r with
        | 'a' :: 'l' :: 's' :: 'e' :: r2 => some (.bool false, r2)
        | _ => none
      else if c == 'n' then
        match r with
        | 'u' :: 'l' :: 'l' :: r2 => some (.null, r2)
        | _ => none
      else
        match parseNum (c :: r) with
        | some (lex, rest) => some (.num lex, rest)
        | none => none

/-- Parse the members of an object after its opening brace, up to and
including the closing brace. -/
def parseMembers : Nat → List Char →
    Option (List (List Char × Json) × List Char)
  | 0, _ => none
  | fuel + 1, s =>
    match skipWs s with
    | c :: r =>
      if c == dquote then
        match parseStr (r.length + 1) r with
        | some (key, rest) =>
          match skipWs rest with
          | ':' :: r2 =>
            match parseValue fuel r2 with
            | some (v, rest2) =>
              match skipWs rest2 with
              | d :: r3 =>
                  if d == ',' then
                    match parseMembers fuel r3 with
                    | some (ms, rest3) => some ((key, v) :: ms, rest3)
                    | none => none
                  else if d == cbrace then some ([(key, v)], r3)
                  else none
              | [] => none
            | none => none
          | _ => none
        | none => none
      else none
    | [] => none

/-- Parse the elements of an array after its opening bracket, up to and
including the closing bracket. -/
def parseElems : Nat → List Char → Option (List Json × List Char)
  | 0, _ => none
  | fuel + 1, s =>
    match parseValue fuel s with
    | some (v, rest) =>
      match skipWs rest with
      | d :: r2 =>
          if d == ',' then
            match parseElems fuel r2 with
            | some (es, rest2) => some (v :: es, rest2)
            | none => none
          else if d == ']' then some ([v], r2)
          else none
      | [] => none
    | none => none

end

/-- The model of JSON.parse: parse one value, then require that only
whitespace remains. -/
def JSONparse (s : List Char) : Option Json :=
  match parseValue (2 * s.length + 2) s with
  | some (v, rest) => if (skipWs rest).isEmpty then some v else none
  | none => none

/-! ## The helper extractJSON

The source helper strips code-fence markers, trims, matches the greedy
brace-span regular expression and parses the match; it returns null
when there is no match or the parse throws. -/

/-- The model of the extractJSON helper of the source. -/
def extractJSON (text : List Char) : Option Json :=
  match braceSpan (trim (stripFences text)) with
  | some u => JSONparse u
  | none => none

/-! ## The optimize route -/

/-- The raw listing extracted by the scrape route and posted back to
the optimize route. -/
structure RawListing where
  title : List Char
  bullets : List (List Char)
  description : List Char
deriving DecidableEq

/-- The optimized listing shape produced by the fallback generator. -/
structure OptimizedListing where
  title : List Char
  bullets : List (List Char)
  description : List Char
  keywords : List (List Char)
deriving DecidableEq

/-- The model identifier reported on the success path. -/
def modelName : List Char := ("gemini-2.5-pro" : String).data

/-- The provider tag reported on the fallback path. -/
def fallbackTag : List Char := ("fallback" : String).data

/-- The JavaScript split on a single space character: segments between
the separator occurrences, empty segments kept. -/
def splitGo : List Char → List Char → List (List Char)
  | [], acc => [acc.reverse]
  | c :: cs, acc =>
      if c == ' ' then acc.reverse :: splitGo cs []
      else splitGo cs (c :: acc)

/-- title.split with the one-character separator of the source. -/
def splitOnSpace (s : List Char) : List (List Char) := splitGo s []

/-- The fixed suffix appended to the original title by the fallback. -/
def fallbackSuffix : List Char := (" – FALLBACK IMPROVEMENT (AI Failed)" : String).data

/-- The five fixed fallback bullets of the source. -/
def fallbackBullets : List (List Char) :=
  [("Set of high-quality items crafted for reliable use" : String).data,
   ("Designed to support repeated usage across relevant scenarios" : String).data,
   ("Made with attention to material quality and consistency" : String).data,
   ("Suitable for everyday and traditional requirements" : String).data,
   ("Simple and practical construction focused on usability" : String).data]

/-- The fixed fallback description of the source. -/
def fallbackDescription : List Char :=
  ("AI optimization failed. This is fallback content for testing." : String).data

/-- The deterministic fallback listing built in the catch branch of the
optimize route. -/
def fallbackFor (d : RawListing) : OptimizedListing where
  title := d.title ++ fallbackSuffix
  bullets := fallbackBullets
  description := fallbackDescription
  keywords := (splitOnSpace d.title).take 5

/-- What the normalization step produced: a parsed model payload, or
the deterministic fallback. -/
inductive NormOut where
  | model (j : Json) : NormOut
  | fallback (o : OptimizedListing) : NormOut

/-- The ai_used tag of the response. -/
def providerOf : NormOut → List Char
  | .model _ => modelName
  | .fallback _ => fallbackTag

/-- The normalization step of the optimize route: extractJSON on the
raw model text; a null result raises, and the catch branch answers
with the deterministic fallback built from the original listing. -/
def normalizeResponse (raw : List Char) (d : RawListing) : NormOut :=
  match extractJSON raw with
  | some j => .model j
  | none => .fallback (fallbackFor d)

/-- The request body of the optimize route: the data field may be
absent, and its title may be absent or empty. -/
structure ReqData where
  title : Option (List Char)
  bullets : List (List Char)
  description : List Char

/-- Responses of the optimize route. -/
inductive OptimizeResponse where
  | badRequest : OptimizeResponse
  | ok (out : NormOut) : OptimizeResponse

/-- The optimize route: reject a missing or empty title with the 400
response, otherwise normalize the raw model text.  The raw text stands
for the provider response obtained inside the try block. -/
def optimizeHandler (body : Option ReqData) (raw : List Char) :
    OptimizeResponse :=
  match body with
  | none => .badRequest
  | some d =>
    match d.title with
    | none => .badRequest
    | some [] => .badRequest
    | some (c :: ts) =>
        .ok (normalizeResponse raw
          { title := c :: ts, bullets := d.bullets,
            description := d.description })

/-! ## The scrape route -/

/-- The bullet pipeline of page.evaluate: text content of each node,
trimmed, kept when longer than twenty characters, first eight kept, in
document order. -/
def extractBullets (nodes : List (List Char)) : List (List Char) :=
  ((nodes.map trim).filter (fun b => decide (20 < b.length))).take 8

/-- One scrape attempt's environment: the outcome of each awaited
operation.  close1 is the outcome of the first invocation of
browser.close, close2 of a second invocation. -/
structure ScrapeEnv where
  launch : Except (List Char) Unit
  newPage : Except (List Char) Unit
  setUA : Except (List Char) Unit
  goto : Except (List Char) Unit
  eval : Except (List Char) RawListing
  close1 : Except (List Char) Unit
  close2 : Except (List Char) Unit

/-- Responses of the scrape route; unhandled is a rejection that
escapes the route handler so that no response is sent. -/
inductive FetchResponse where
  | ok (d : RawListing) : FetchResponse
  | notFound : FetchResponse
  | scrapeFailed : FetchResponse
  | unhandled : FetchResponse
deriving DecidableEq

/-- The catch branch: the browser is defined, so browser.close is
awaited once more; its own rejection escapes the handler. -/
def catchClose (env : ScrapeEnv) (closesSoFar : Nat) : FetchResponse × Nat :=
  match (if closesSoFar == 0 then env.close1 else env.close2) with
  | .ok _ => (.scrapeFailed, closesSoFar + 1)
  | .error _ => (.unhandled, closesSoFar + 1)

/-- The scrape route body: launch, open page, set the user agent,
navigate, evaluate, close, then classify an empty title as the 404
response; any rejection reaches the catch branch, which closes the
browser again when it was launched.  The second component counts the
invocations of browser.close. -/
def fetchAttempt (env : ScrapeEnv) : FetchResponse × Nat :=
  match env.launch with
  | .error _ => (.scrapeFailed, 0)
  | .ok _ =>
    match env.newPage with
    | .error _ => catchClose env 0
    | .ok _ =>
      match env.setUA with
      | .error _ => catchClose env 0
      | .ok _ =>
        match env.goto with
        | .error _ => catchClose env 0
        | .ok _ =>
          match env.eval with
          | .error _ => catchClose env 0
          | .ok d =>
            match env.close1 with
            | .error _ => catchClose env 1
            | .ok _ =>
                if d.title.isEmpty then (.notFound, 1) else (.ok d, 1)

/-! ## Definitions written from the specification's words

These two definitions are not translations of the source; they state
what the specification says, for comparison with the source model. -/

/-- Modelled from the spec: the greedy brace-span - the substring that
begins at the first opening brace and ends at the last closing brace,
when the last closing brace comes after the first opening brace. -/
def specGreedySpan (s : List Char) : Option (List Char) :=
  let i := s.findIdx (fun c => c == obrace)
  let jr := s.reverse.findIdx (fun c => c == cbrace)
  let j := s.length - 1 - jr
  if i < s.length ∧ jr < s.length ∧ i < j then
    some ((s.drop i).take (j - i + 1))
  else none

/-- Modelled from the spec: the normalizer algorithm as the
specification words it - strip fences, trim, select the greedy
brace-span, parse it, fail when there is no span. -/
def specExtractJSON (text : List Char) : Option Json :=
  match specGreedySpan (trim (stripFences text)) with
  | some u => JSONparse u
  | none => none

/-- Modelled from the spec: the whitespace-delimited tokens of a
string, used by the claim about the fallback keywords. -/
def wsTokensGo : List Char → List Char → List (List Char)
  | [], acc => if acc.isEmpty then [] else [acc.reverse]
  | c :: cs, acc =>
      if isSp c then
        if acc.isEmpty then wsTokensGo cs [] else acc.reverse :: wsTokensGo cs []
      else wsTokensGo cs (c :: acc)

/-- Modelled from the spec: whitespace-delimited tokenization. -/
def wsTokens (s : List Char) : List (List Char) := wsTokensGo s []

/-! ## The regular expression match equals the spec's greedy span -/

theorem dropWhile_not_eq_drop_findIdx (p : Char → Bool) :
    ∀ s : List Char, s.dropWhile (fun c => !(p c)) = s.drop (s.findIdx p) := by
  intro s
  induction s with
  | nil => rfl
  | cons c cs ih =>
      rw [List.findIdx_cons]
      cases h : p c with
      | true =>
          rw [List.dropWhile_cons_of_neg (by simp [h])]
          rfl
      | false =>
          rw [List.dropWhile_cons_of_pos (by simp [h])]
          rw [ih]
          rfl

theorem findIdx_take (q : Char → Bool) :
    ∀ (l : List Char) (k : Nat), (l.take k).findIdx q < k →
      l.findIdx q = (l.take k).findIdx q := by
  intro l
  induction l with
  | nil => intro k _; simp
  | cons c cs ih =>
      intro k hk
      cases k with
      | zero => simp at hk
      | succ k =>
          rw [List.take_succ_cons] at hk ⊢
          rw [List.findIdx_cons, List.findIdx_cons]
          cases h : q c with
          | true => rfl
          | false =>
              simp only [Bool.cond_false]
              rw [List.findIdx_cons, h, Bool.cond_false] at hk
              have hk2 : (cs.take k).findIdx q < k := by omega
              rw [ih k hk2]

/-- The characters at the first opening brace and at the position of
the last closing brace. -/
theorem findIdx_char (pch : Char) (l : List Char)
    (h : l.findIdx (fun c => c == pch) < l.length) :
    l.get ⟨l.findIdx (fun c => c == pch), h⟩ = pch := by
  have h1 := @List.findIdx_getElem _ (fun c => c == pch) l h
  simpa using h1

/-- The regular expression span model agrees with the specification's
index description of the greedy brace span. -/
theorem braceSpan_eq_specGreedySpan (s : List Char) :
    braceSpan s = specGreedySpan s := by
  have ht : s.dropWhile (fun c => !(c == obrace)) =
      s.drop (s.findIdx (fun c => c == obrace)) :=
    dropWhile_not_eq_drop_findIdx (fun c => c == obrace) s
  have hile : s.findIdx (fun c => c == obrace) ≤ s.length :=
    List.findIdx_le_length (fun c => c == obrace)
  have hjrle : s.reverse.findIdx (fun c => c == cbrace) ≤ s.length := by
    have h0 : s.reverse.findIdx (fun c => c == cbrace) ≤ s.reverse.length :=
      List.findIdx_le_length (fun c => c == cbrace)
    simpa using h0
  rcases Nat.lt_or_ge (s.findIdx (fun c => c == obrace)) s.length with hin | hin
  · -- an opening brace exists
    have htr : (s.drop (s.findIdx (fun c => c == obrace))).reverse =
        s.reverse.take (s.length - s.findIdx (fun c => c == obrace)) := by
      rw [List.reverse_drop]
    have hu : (s.drop (s.findIdx (fun c => c == obrace))).reverse.dropWhile
        (fun c => !(c == cbrace)) =
        (s.reverse.take (s.length - s.findIdx (fun c => c == obrace))).drop
          ((s.reverse.take
            (s.length - s.findIdx (fun c => c == obrace))).findIdx
            (fun c => c == cbrace)) := by
      rw [htr]
      exact dropWhile_not_eq_drop_findIdx (fun c => c == cbrace) _
    have hmlen : (s.reverse.take
        (s.length - s.findIdx (fun c => c == obrace))).length =
        s.length - s.findIdx (fun c => c == obrace) := by
      rw [List.length_take, List.length_reverse]
      omega
    have hmle : (s.reverse.take
        (s.length - s.findIdx (fun c => c == obrace))).findIdx
        (fun c => c == cbrace) ≤
        (s.reverse.take (s.length - s.findIdx (fun c => c == obrace))).length :=
      List.findIdx_le_length (fun c => c == cbrace)
    rw [hmlen] at hmle
    rcases Nat.lt_or_ge ((s.reverse.take
        (s.length - s.findIdx (fun c => c == obrace))).findIdx
        (fun c => c == cbrace))
        (s.length - s.findIdx (fun c => c == obrace)) with hm | hm
    · -- a closing brace exists after the first opening brace
      have hjr : s.reverse.findIdx (fun c => c == cbrace) =
          (s.reverse.take
            (s.length - s.findIdx (fun c => c == obrace))).findIdx
            (fun c => c == cbrace) :=
        findIdx_take (fun c => c == cbrace) s.reverse _ hm
      have hopen : s.get ⟨s.findIdx (fun c => c == obrace), hin⟩ = obrace :=
        findIdx_char obrace s hin
      have hjrn : s.reverse.findIdx (fun c => c == cbrace) < s.length := by
        omega
      have hclose : s.get ⟨s.length - 1 -
          s.reverse.findIdx (fun c => c == cbrace), by omega⟩ = cbrace := by
        have h1 : s.reverse.get ⟨s.reverse.findIdx (fun c => c == cbrace),
            by simpa using hjrn⟩ = cbrace :=
          findIdx_char cbrace s.reverse (by simpa using hjrn)
        have h2 : s.reverse.get ⟨s.reverse.findIdx (fun c => c == cbrace),
            by simpa using hjrn⟩ = s.get ⟨s.length - 1 -
              s.reverse.findIdx (fun c => c == cbrace), by omega⟩ := by
          simp [List.getElem_reverse]
        exact h2.symm.trans h1
      have hij : s.findIdx (fun c => c == obrace) <
          s.length - 1 - s.reverse.findIdx (fun c => c == cbrace) := by
        rcases Nat.lt_or_ge (s.findIdx (fun c => c == obrace))
          (s.length - 1 - s.reverse.findIdx (fun c => c == cbrace))
          with h | h
        · exact h
        · exfalso
          have heq : s.findIdx (fun c => c == obrace) =
              s.length - 1 - s.reverse.findIdx (fun c => c == cbrace) := by
            omega
          have hfin : (⟨s.findIdx (fun c => c == obrace), hin⟩ :
              Fin s.length) =
              ⟨s.length - 1 - s.reverse.findIdx (fun c => c == cbrace),
                by omega⟩ := Fin.ext heq
          have hoc := congrArg s.get hfin
          exact absurd ((hopen.symm.trans hoc).trans hclose) (by decide)
      show (if _ then _ else _) = _
      rw [ht, hu]
      have hspan : (((s.reverse.take
          (s.length - s.findIdx (fun c => c == obrace))).drop
          ((s.reverse.take
            (s.length - s.findIdx (fun c => c == obrace))).findIdx
            (fun c => c == cbrace))).reverse) =
          (s.drop (s.findIdx (fun c => c == obrace))).take
            (s.length - s.findIdx (fun c => c == obrace) -
              (s.reverse.take
                (s.length - s.findIdx (fun c => c == obrace))).findIdx
                (fun c => c == cbrace)) := by
        rw [← htr, List.reverse_drop, List.reverse_reverse,
          List.length_reverse, List.length_drop]
      rw [hspan]
      rw [if_neg ?_]
      · unfold specGreedySpan
        rw [if_pos ⟨hin, hjrn, hij⟩]
        rw [hjr] at hij ⊢
        congr 1
        congr 1
        omega
      · simp only [List.isEmpty_eq_true]
        intro hnil
        have := congrArg List.length hnil
        rw [List.length_take, List.length_drop] at this
        simp only [List.length_nil] at this
        omega
    · -- no closing brace after the first opening brace
      have hm2 : (s.reverse.take
          (s.length - s.findIdx (fun c => c == obrace))).findIdx
          (fun c => c == cbrace) =
          s.length - s.findIdx (fun c => c == obrace) := by omega
      show (if _ then _ else _) = _
      rw [ht, hu, hm2, List.drop_eq_nil_of_le hmlen.le, List.reverse_nil]
      have hnone : (if (([] : List Char)).isEmpty = true
          then (none : Option (List Char)) else some []) = none := by simp
      rw [hnone]
      unfold specGreedySpan
      rw [if_neg ?_]
      rintro ⟨h1, h2, h3⟩
      have hclose : s.get ⟨s.length - 1 -
          s.reverse.findIdx (fun c => c == cbrace), by omega⟩ = cbrace := by
        have hx : s.reverse.get ⟨s.reverse.findIdx (fun c => c == cbrace),
            by simpa using h2⟩ = cbrace :=
          findIdx_char cbrace s.reverse (by simpa using h2)
        have hy : s.reverse.get ⟨s.reverse.findIdx (fun c => c == cbrace),
            by simpa using h2⟩ = s.get ⟨s.length - 1 -
              s.reverse.findIdx (fun c => c == cbrace), by omega⟩ := by
          simp [List.getElem_reverse]
        exact hy.symm.trans hx
      have hmem : cbrace ∈ s.reverse.take
          (s.length - s.findIdx (fun c => c == obrace)) := by
        rw [← htr, List.mem_reverse]
        have hb : (s.length - 1 - s.reverse.findIdx (fun c => c == cbrace)) -
            s.findIdx (fun c => c == obrace) <
            (s.drop (s.findIdx (fun c => c == obrace))).length := by
          rw [List.length_drop]
          omega
        have hg : (s.drop (s.findIdx (fun c => c == obrace))).get
            ⟨(s.length - 1 - s.reverse.findIdx (fun c => c == cbrace)) -
              s.findIdx (fun c => c == obrace), hb⟩ =
            s.get ⟨s.length - 1 -
              s.reverse.findIdx (fun c => c == cbrace), by omega⟩ := by
          simp only [List.get_eq_getElem, List.getElem_drop]
          congr 1
          omega
        have hmm := List.get_mem (s.drop (s.findIdx (fun c => c == obrace)))
          ((s.length - 1 - s.reverse.findIdx (fun c => c == cbrace)) -
            s.findIdx (fun c => c == obrace)) hb
        rw [hg, hclose] at hmm
        exact hmm
      have hall := List.findIdx_eq_length.mp (hm2.trans hmlen.symm)
      have := hall cbrace hmem
      exact absurd this (by decide)
  · -- no opening brace at all
    have hi2 : s.findIdx (fun c => c == obrace) = s.length := by omega
    show (if _ then _ else _) = _
    rw [ht, hi2, List.drop_eq_nil_of_le (le_refl _), List.reverse_nil]
    rw [List.dropWhile_nil, List.reverse_nil]
    have hnone : (if (([] : List Char)).isEmpty = true
        then (none : Option (List Char)) else some []) = none := by simp
    rw [hnone]
    unfold specGreedySpan
    rw [if_neg ?_]
    rintro ⟨h1, _, _⟩
    omega

/-- C7: extractJSON implements the specified algorithm - after
stripping code-fence markers and trimming, it selects exactly the
substring from the first opening brace to the last closing brace and
parses it, and reports failure when no such span exists; as one
equation between the source model and the spec-worded algorithm. -/
theorem extractJSON_eq_specExtractJSON (text : List Char) :
    extractJSON text = specExtractJSON text := by
  unfold extractJSON specExtractJSON
  rw [braceSpan_eq_specGreedySpan]

/-! ## Whatever extractJSON returns is an object -/

theorem dropWhile_head_false (p : Char → Bool) :
    ∀ (s : List Char) (c : Char) (cs : List Char),
      s.dropWhile p = c :: cs → p c = false := by
  intro s
  induction s with
  | nil => intro c cs h; simp at h
  | cons a as ih =>
      intro c cs h
      rw [List.dropWhile_cons] at h
      by_cases ha : p a = true
      · rw [if_pos ha] at h
        exact ih c cs h
      · rw [if_neg ha] at h
        have : a = c := (List.cons.injEq a as c cs ▸ h).1
        subst this
        exact Bool.not_eq_true _ ▸ (by simpa using ha)

/-- A successful brace-span match starts with the opening brace. -/
theorem braceSpan_head (s u : List Char) (h : braceSpan s = some u) :
    ∃ u2, u = obrace :: u2 := by
  have h2 : (if (((s.dropWhile (fun c => !(c == obrace))).reverse.dropWhile
      (fun c => !(c == cbrace))).reverse).isEmpty
      then (none : Option (List Char))
      else some (((s.dropWhile (fun c => !(c == obrace))).reverse.dropWhile
        (fun c => !(c == cbrace))).reverse)) = some u := h
  rcases hU : ((s.dropWhile (fun c => !(c == obrace))).reverse.dropWhile
      (fun c => !(c == cbrace))).reverse with _ | ⟨a, u2⟩
  · rw [hU] at h2
    simp at h2
  · rw [hU] at h2
    simp only [List.isEmpty_cons] at h2
    rw [if_neg (by simp)] at h2
    have hu : u = a :: u2 := (Option.some_inj.mp h2).symm
    refine ⟨u2, ?_⟩
    have hsplit := List.takeWhile_append_dropWhile
      (p := fun c => !(c == cbrace))
      (l := (s.dropWhile (fun c => !(c == obrace))).reverse)
    have hrec := congrArg List.reverse hsplit
    rw [List.reverse_append, List.reverse_reverse] at hrec
    have hpre : s.dropWhile (fun c => !(c == obrace)) =
        (a :: u2) ++ ((s.dropWhile (fun c => !(c == obrace))).reverse.takeWhile
          (fun c => !(c == cbrace))).reverse := by
      rw [← hU]
      exact hrec.symm
    have hhd := dropWhile_head_false (fun c => !(c == obrace)) s a
      (u2 ++ ((s.dropWhile (fun c => !(c == obrace))).reverse.takeWhile
        (fun c => !(c == cbrace))).reverse) (by simpa using hpre)
    have hhd2 : (!(a == obrace)) = false := by simpa using hhd
    have ha : a = obrace := by
      have hx : (a == obrace) = true := by
        cases hx2 : (a == obrace) with
        | true => rfl
        | false => rw [hx2] at hhd2; simp at hhd2
      simpa using hx
    rw [hu, ha]

/-- After an opening brace, a successful parse always yields an
object. -/
theorem parseValue_obrace (f : Nat) (r : List Char) (v : Json)
    (rest : List Char)
    (h : parseValue (f + 1) (obrace :: r) = some (v, rest)) :
    v.isObj = true := by
  rw [parseValue] at h
  have hskip : skipWs (obrace :: r) = obrace :: r := by
    rw [skipWs, List.dropWhile_cons_of_neg]
    simp [jsonWs, obrace]
  rw [hskip] at h
  simp only [beq_self_eq_true, if_true] at h
  rcases hs : skipWs r with _ | ⟨d, r2⟩ <;> rw [hs] at h <;> dsimp only at h
  · exact absurd h (by simp)
  · by_cases hd : (d == cbrace) = true
    · rw [if_pos hd] at h
      simp only [Option.some_inj, Prod.mk.injEq] at h
      rw [← h.1]
      rfl
    · rw [if_neg hd] at h
      rcases hms : parseMembers f (d :: r2) with _ | ⟨ms, rest2⟩ <;>
        rw [hms] at h
      · exact absurd h (by simp)
      · simp only [Option.some_inj, Prod.mk.injEq] at h
        rw [← h.1]
        rfl

/-- JSON.parse on an input that starts with an opening brace yields an
object when it succeeds. -/
theorem JSONparse_isObj (r : List Char) (v : Json)
    (h : JSONparse (obrace :: r) = some v) : v.isObj = true := by
  unfold JSONparse at h
  have hf : 2 * (obrace :: r).length + 2 =
      (2 * (obrace :: r).length + 1) + 1 := rfl
  rw [hf] at h
  rcases hpv : parseValue ((2 * (obrace :: r).length + 1) + 1) (obrace :: r)
    with _ | ⟨v2, rest⟩ <;> rw [hpv] at h <;> dsimp only at h
  · exact absurd h (by simp)
  · by_cases he : (skipWs rest).isEmpty = true
    · rw [if_pos he] at h
      rw [← Option.some_inj.mp h]
      exact parseValue_obrace _ r v2 rest hpv
    · rw [if_neg he] at h
      exact absurd h (by simp)

/-! ## Trim is idempotent -/

theorem dropWhile_dropWhile (p : Char → Bool) (l : List Char) :
    (l.dropWhile p).dropWhile p = l.dropWhile p := by
  induction l with
  | nil => rfl
  | cons c cs ih =>
      rw [List.dropWhile_cons]
      by_cases h : p c = true
      · rw [if_pos h]
        exact ih
      · rw [if_neg h]
        exact List.dropWhile_cons_of_neg h

theorem rtrim_idem (s : List Char) : rtrim (rtrim s) = rtrim s := by
  show (((s.reverse.dropWhile isSp).reverse).reverse.dropWhile isSp).reverse
      = _
  rw [List.reverse_reverse, dropWhile_dropWhile]
  rfl

theorem rtrim_prefix (s : List Char) : ∃ w, s = rtrim s ++ w := by
  refine ⟨(s.reverse.takeWhile isSp).reverse, ?_⟩
  have hsplit := List.takeWhile_append_dropWhile (p := isSp) (l := s.reverse)
  have h2 := congrArg List.reverse hsplit
  rw [List.reverse_append, List.reverse_reverse] at h2
  exact h2.symm

theorem trim_idem (s : List Char) : trim (trim s) = trim s := by
  show rtrim (ltrim (rtrim (ltrim s))) = rtrim (ltrim s)
  have hstep : ltrim (rtrim (ltrim s)) = rtrim (ltrim s) := by
    cases h : rtrim (ltrim s) with
    | nil => rfl
    | cons c cs =>
        obtain ⟨w, hw⟩ := rtrim_prefix (ltrim s)
        rw [h] at hw
        have hc : isSp c = false := by
          apply dropWhile_head_false isSp s c (cs ++ w)
          show ltrim s = c :: (cs ++ w)
          rw [hw]
          rfl
        show (c :: cs).dropWhile isSp = c :: cs
        rw [List.dropWhile_cons_of_neg (by simp [hc])]
  rw [hstep, rtrim_idem]

/-- C4: the bullet pipeline keeps at most eight entries, each a trimmed
string longer than twenty characters, in document order. -/
theorem c4_bullets_pipeline (nodes : List (List Char)) :
    (extractBullets nodes).length ≤ 8 ∧
    (∀ b ∈ extractBullets nodes, 20 < b.length ∧ trim b = b) ∧
    List.Sublist (extractBullets nodes) (nodes.map trim) := by
  refine ⟨?_, ?_, ?_⟩
  · exact List.length_take_le 8 _
  · intro b hb
    have hb1 : b ∈ (nodes.map trim).filter (fun b => decide (20 < b.length)) :=
      List.mem_of_mem_take hb
    have hb2 := List.mem_filter.mp hb1
    refine ⟨by simpa using hb2.2, ?_⟩
    obtain ⟨a, _, ha⟩ := List.mem_map.mp hb2.1
    rw [← ha]
    exact trim_idem a
  · exact (List.take_sublist 8 _).trans (List.filter_sublist _)

/-! ## A well-placed object survives the whole cleaning pipeline -/

theorem eqCI_btick_false (c : Char) (h : c ≠ btick) :
    eqCI btick c = false := by
  have h1 : (btick == c) = false := beq_eq_false_iff_ne.mpr fun he => h he.symm
  simp [eqCI, h1, show (btick == 'j') = false from rfl,
    show (btick == 's') = false from rfl,
    show (btick == 'o') = false from rfl,
    show (btick == 'n') = false from rfl]

theorem eqCS_btick_false (c : Char) (h : c ≠ btick) :
    eqCS btick c = false := by
  have h1 : (btick == c) = false := beq_eq_false_iff_ne.mpr fun he => h he.symm
  simp [eqCS, h1]

theorem not_hit_of_forall (eq : Char → Char → Bool) (pat : List Char)
    (c : Char) (h : ∀ q ∈ pat, eq q c = false) : ¬ Hit eq pat c := by
  rintro ⟨q, hq, he⟩
  rw [h q hq] at he
  exact absurd he (by simp)

theorem stripFences_subset (X : List Char) :
    ∀ c ∈ stripFences X, c ∈ X := by
  intro c hc
  have h1 : c ∈ deleteAll eqCI fenceJson X :=
    (delGo_sublist eqCS btick [btick, btick]
      (deleteAll eqCI fenceJson X) 0).subset hc
  exact (delGo_sublist eqCI btick [btick, btick, 'j', 's', 'o', 'n'] X
    0).subset h1

/-- Stripping the two fence patterns passes over a backtick-free
bracketed object and stays on its own side of it. -/
theorem stripFences_sandwich (P obj Q : List Char) (obj2 : List Char)
    (hhead : obj = obrace :: obj2) (hlast : obj.getLast? = some cbrace)
    (hT : btick ∉ obj) :
    stripFences (P ++ obj ++ Q) =
      stripFences P ++ obj ++ stripFences Q := by
  have hobjCI : ∀ c ∈ obj, eqCI btick c = false := fun c hc =>
    eqCI_btick_false c (fun he => hT (he ▸ hc))
  have hobjCS : ∀ c ∈ obj, eqCS btick c = false := fun c hc =>
    eqCS_btick_false c (fun he => hT (he ▸ hc))
  have h1 := deleteAll_sandwich eqCI btick [btick, btick, 'j', 's', 'o', 'n']
    P obj Q obj2 hhead hlast
    (not_hit_of_forall eqCI _ obrace (by decide))
    (not_hit_of_forall eqCI _ cbrace (by decide)) hobjCI
  have h2 := deleteAll_sandwich eqCS btick [btick, btick]
    (deleteAll eqCI fenceJson P) obj (deleteAll eqCI fenceJson Q) obj2
    hhead hlast
    (not_hit_of_forall eqCS _ obrace (by decide))
    (not_hit_of_forall eqCS _ cbrace (by decide)) hobjCS
  have h1x : deleteAll eqCI fenceJson (P ++ obj ++ Q) =
      deleteAll eqCI fenceJson P ++ obj ++ deleteAll eqCI fenceJson Q := h1
  have h2x : deleteAll eqCS fencePlain
      (deleteAll eqCI fenceJson P ++ obj ++ deleteAll eqCI fenceJson Q) =
      deleteAll eqCS fencePlain (deleteAll eqCI fenceJson P) ++ obj ++
        deleteAll eqCS fencePlain (deleteAll eqCI fenceJson Q) := h2
  show deleteAll eqCS fencePlain
      (deleteAll eqCI fenceJson (P ++ obj ++ Q)) = _
  rw [h1x, h2x]
  rfl

/-- C2's core: a brace-delimited JSON object with brace-free
commentary before and after it is exactly what extractJSON parses. -/
theorem extractJSON_sandwich (P obj Q : List Char) (v : Json)
    (hP : obrace ∉ P) (hQ : cbrace ∉ Q) (hT : btick ∉ obj)
    (hhead : obj.head? = some obrace) (hlast : obj.getLast? = some cbrace)
    (hparse : JSONparse obj = some v) :
    extractJSON (P ++ obj ++ Q) = some v := by
  obtain ⟨obj2, hobj2⟩ : ∃ obj2, obj = obrace :: obj2 := by
    cases obj with
    | nil => simp at hhead
    | cons a as =>
        refine ⟨as, ?_⟩
        have : a = obrace := by simpa using hhead
        rw [this]
  have hstrip := stripFences_sandwich P obj Q obj2 hobj2 hlast hT
  obtain ⟨P1, Q1, htrim, hPmem, hQmem⟩ :=
    trim_sandwich (stripFences P) obj (stripFences Q) obj2 hobj2 hlast
  have hbs : braceSpan (trim (stripFences (P ++ obj ++ Q))) = some obj := by
    rw [hstrip, htrim]
    apply braceSpan_sandwich P1 obj Q1 obj2 hobj2 hlast
    · intro hmem
      exact hP (stripFences_subset P obrace (hPmem obrace hmem))
    · intro hmem
      exact hQ (stripFences_subset Q cbrace (hQmem cbrace hmem))
  unfold extractJSON
  rw [hbs]
  exact hparse

/-! ## Concrete inputs used by witnesses and counterexamples -/

/-- A small JSON object text used as the embedded payload. -/
def objX : List Char := [obrace] ++ ("\"title\":\"X\"" : String).data ++ [cbrace]

/-- Its parsed value. -/
def vX : Json := Json.obj [(("title" : String).data, Json.str ("X" : String).data)]

/-- Commentary with an opening fence before the payload. -/
def preA : List Char := ("Here you go:\n```json\n" : String).data

/-- Commentary with a closing fence after the payload. -/
def postA : List Char := ("\n``` thanks" : String).data

/-- Commentary that itself contains an opening brace. -/
def noiseC2 : List Char := ("note " : String).data ++ [obrace] ++ (" see\n" : String).data

/-- A refusal answer with no braces at all. -/
def refusalText : List Char := ("Sorry, I cannot comply." : String).data

/-- A listing whose title has two consecutive spaces. -/
def dBlue : RawListing where
  title := ("Blue  Widget Pro" : String).data
  bullets := []
  description := []

/-- The same title posted as a request body. -/
def dReqBlue : ReqData where
  title := some (("Blue  Widget Pro" : String).data)
  bullets := []
  description := []

/-- A scrape run that succeeds with an empty title. -/
def envOkEmpty : ScrapeEnv where
  launch := Except.ok ()
  newPage := Except.ok ()
  setUA := Except.ok ()
  goto := Except.ok ()
  eval := Except.ok { title := [], bullets := [], description := [] }
  close1 := Except.ok ()
  close2 := Except.ok ()

/-- A scrape run whose first browser.close invocation rejects after an
extraction that returned an empty title. -/
def envCloseFail : ScrapeEnv where
  launch := Except.ok ()
  newPage := Except.ok ()
  setUA := Except.ok ()
  goto := Except.ok ()
  eval := Except.ok { title := [], bullets := [], description := [] }
  close1 := Except.error (("close failed" : String).data)
  close2 := Except.ok ()

/-! ## The claims -/

/-- C1: for every free-text model response and every posted listing
with a non-empty title, the optimize route's normalization path always
completes with an OptimizedListing payload and a provider name - there
is no error-returning exit. -/
theorem c1_normalizer_total (raw : List Char) (d : ReqData) (t : List Char)
    (ht : d.title = some t) (hne : t ≠ []) :
    ∃ out, optimizeHandler (some d) raw = OptimizeResponse.ok out ∧
      (providerOf out = modelName ∨ providerOf out = fallbackTag) := by
  cases t with
  | nil => exact absurd rfl hne
  | cons c ts =>
      refine ⟨normalizeResponse raw
        { title := c :: ts, bullets := d.bullets,
          description := d.description }, ?_, ?_⟩
      · simp [optimizeHandler, ht]
      · cases hx : extractJSON raw <;>
          simp [normalizeResponse, hx, providerOf]

theorem c1_witness :
    ∃ out, optimizeHandler (some dReqBlue) refusalText =
      OptimizeResponse.ok out ∧
      (providerOf out = modelName ∨ providerOf out = fallbackTag) :=
  c1_normalizer_total refusalText dReqBlue
    (("Blue  Widget Pro" : String).data) rfl (by decide)

/-- C2 (amended): when the model text is brace-free commentary, then a
brace-delimited backtick-free JSON object, then commentary without a
closing brace, extractJSON returns exactly the parsed object and the
provider name is the model identifier. -/
theorem c2_amended_embedded_object (P obj Q : List Char) (d : RawListing)
    (v : Json)
    (hP : obrace ∉ P) (hQ : cbrace ∉ Q) (hT : btick ∉ obj)
    (hhead : obj.head? = some obrace) (hlast : obj.getLast? = some cbrace)
    (hparse : JSONparse obj = some v) :
    extractJSON (P ++ obj ++ Q) = some v ∧
    normalizeResponse (P ++ obj ++ Q) d = NormOut.model v ∧
    providerOf (normalizeResponse (P ++ obj ++ Q) d) = modelName := by
  have hext := extractJSON_sandwich P obj Q v hP hQ hT hhead hlast hparse
  have hext2 : extractJSON (P ++ (obj ++ Q)) = some v := by
    rw [← List.append_assoc]
    exact hext
  refine ⟨hext, ?_, ?_⟩ <;> simp [normalizeResponse, hext2, providerOf]

theorem c2_witness :
    extractJSON (preA ++ objX ++ postA) = some vX ∧
    normalizeResponse (preA ++ objX ++ postA) dBlue = NormOut.model vX ∧
    providerOf (normalizeResponse (preA ++ objX ++ postA) dBlue) =
      modelName :=
  c2_amended_embedded_object preA objX postA dBlue vX (by decide) (by decide)
    (by decide) rfl rfl rfl

/-- C2 (counterexample): the text below contains the valid
brace-delimited object objX with mere commentary before it, yet the
commentary's stray opening brace makes the greedy span unparseable, so
extractJSON returns null and the provider name is the fallback tag. -/
theorem c2_counterexample :
    noiseC2 ++ objX ++ [] = noiseC2 ++ objX ++ [] ∧
    JSONparse objX = some vX ∧
    objX.head? = some obrace ∧ objX.getLast? = some cbrace ∧
    extractJSON (noiseC2 ++ objX ++ []) = none ∧
    providerOf (normalizeResponse (noiseC2 ++ objX ++ []) dBlue) =
      fallbackTag :=
  ⟨rfl, rfl, rfl, rfl, rfl, rfl⟩

/-- C3 (amended): whenever extractJSON fails - no brace-span, or
unparseable span - the optimize route answers with the deterministic
fallback listing, the provider name is the fallback tag, and the
keywords field holds the first five segments of the title split at each
single space character, empty segments included. -/
theorem c3_amended_fallback (raw : List Char) (d : RawListing)
    (h : extractJSON raw = none) :
    normalizeResponse raw d = NormOut.fallback (fallbackFor d) ∧
    providerOf (normalizeResponse raw d) = fallbackTag ∧
    (fallbackFor d).keywords = (splitOnSpace d.title).take 5 := by
  refine ⟨?_, ?_, rfl⟩ <;> simp [normalizeResponse, h, providerOf]

theorem c3_witness :
    normalizeResponse refusalText dBlue =
      NormOut.fallback (fallbackFor dBlue) ∧
    providerOf (normalizeResponse refusalText dBlue) = fallbackTag ∧
    (fallbackFor dBlue).keywords = (splitOnSpace dBlue.title).take 5 :=
  c3_amended_fallback refusalText dBlue rfl

/-- C3 (counterexample): on the fallback path for the title with two
consecutive spaces, the keywords are the split-at-single-space
segments, which differ from the first five whitespace-delimited tokens
the claim describes. -/
theorem c3_counterexample :
    extractJSON refusalText = none ∧
    normalizeResponse refusalText dBlue =
      NormOut.fallback (fallbackFor dBlue) ∧
    (fallbackFor dBlue).keywords =
      [("Blue" : String).data, [], ("Widget" : String).data,
        ("Pro" : String).data] ∧
    (wsTokens dBlue.title).take 5 =
      [("Blue" : String).data, ("Widget" : String).data,
        ("Pro" : String).data] ∧
    (fallbackFor dBlue).keywords ≠ (wsTokens dBlue.title).take 5 :=
  ⟨rfl, rfl, rfl, rfl, by decide⟩

/-- C8: the normalizer is deterministic - two calls on identical model
text and identical original listing give identical payload and
identical provider name. -/
theorem c8_deterministic (r1 r2 : List Char) (d1 d2 : RawListing)
    (hr : r1 = r2) (hd : d1 = d2) :
    normalizeResponse r1 d1 = normalizeResponse r2 d2 ∧
    providerOf (normalizeResponse r1 d1) =
      providerOf (normalizeResponse r2 d2) := by
  subst hr
  subst hd
  exact ⟨rfl, rfl⟩

theorem c8_witness :
    normalizeResponse refusalText dBlue = normalizeResponse refusalText dBlue ∧
    providerOf (normalizeResponse refusalText dBlue) =
      providerOf (normalizeResponse refusalText dBlue) :=
  c8_deterministic refusalText refusalText dBlue dBlue rfl rfl

/-- C9: a request body with no data field, or whose title is absent or
empty, is answered with the 400 Missing-product-data response whatever
the provider would have said, and no listing is produced. -/
theorem c9_missing_data (body : Option ReqData) (raw : List Char)
    (h : body = none ∨
      ∃ d, body = some d ∧ (d.title = none ∨ d.title = some [])) :
    optimizeHandler body raw = OptimizeResponse.badRequest := by
  rcases h with rfl | ⟨d, rfl, hd⟩
  · rfl
  · rcases hd with hd | hd <;> simp [optimizeHandler, hd]

theorem c9_witness :
    optimizeHandler none refusalText = OptimizeResponse.badRequest :=
  c9_missing_data none refusalText (Or.inl rfl)

/-- C10: whenever extractJSON succeeds, the returned value is a JSON
object - the matched span starts at an opening brace, so no other kind
of value can come back. -/
theorem c10_success_is_object (text : List Char) (v : Json)
    (h : extractJSON text = some v) : v.isObj = true := by
  unfold extractJSON at h
  rcases hb : braceSpan (trim (stripFences text)) with _ | u <;>
    rw [hb] at h <;> dsimp only at h
  · exact absurd h (by simp)
  · obtain ⟨u2, hu⟩ := braceSpan_head _ _ hb
    rw [hu] at h
    exact JSONparse_isObj u2 v h

theorem c10_witness : Json.isObj vX = true :=
  c10_success_is_object objX vX rfl

/-- C5 (amended): provided the in-try teardown invocation succeeds, an
extraction that completes with an empty title is answered with the 404
response and never the 500 one, any exception from launch up to
extraction is answered with the 500 response and never the 404 one,
and the two are distinct. -/
theorem c5_amended_classification (env : ScrapeEnv)
    (hclose : env.close1 = Except.ok ()) :
    (∀ d : RawListing, env.launch = Except.ok () →
      env.newPage = Except.ok () → env.setUA = Except.ok () →
      env.goto = Except.ok () → env.eval = Except.ok d → d.title = [] →
      fetchAttempt env = (FetchResponse.notFound, 1)) ∧
    (((∃ e, env.launch = Except.error e) ∨
      (env.launch = Except.ok () ∧ ∃ e, env.newPage = Except.error e) ∨
      (env.launch = Except.ok () ∧ env.newPage = Except.ok () ∧
        ∃ e, env.setUA = Except.error e) ∨
      (env.launch = Except.ok () ∧ env.newPage = Except.ok () ∧
        env.setUA = Except.ok () ∧ ∃ e, env.goto = Except.error e) ∨
      (env.launch = Except.ok () ∧ env.newPage = Except.ok () ∧
        env.setUA = Except.ok () ∧ env.goto = Except.ok () ∧
        ∃ e, env.eval = Except.error e)) →
      (fetchAttempt env).1 = FetchResponse.scrapeFailed) ∧
    FetchResponse.notFound ≠ FetchResponse.scrapeFailed := by
  refine ⟨?_, ?_, by decide⟩
  · intro d h1 h2 h3 h4 h5 h6
    simp [fetchAttempt, h1, h2, h3, h4, h5, hclose, h6]
  · rintro (⟨e, he⟩ | ⟨h1, e, he⟩ | ⟨h1, h2, e, he⟩ | ⟨h1, h2, h3, e, he⟩ |
      ⟨h1, h2, h3, h4, e, he⟩)
    · simp [fetchAttempt, he]
    · simp [fetchAttempt, h1, he, catchClose, hclose]
    · simp [fetchAttempt, h1, h2, he, catchClose, hclose]
    · simp [fetchAttempt, h1, h2, h3, he, catchClose, hclose]
    · simp [fetchAttempt, h1, h2, h3, h4, he, catchClose, hclose]

theorem c5_witness :
    fetchAttempt envOkEmpty = (FetchResponse.notFound, 1) :=
  (c5_amended_classification envOkEmpty rfl).1
    { title := [], bullets := [], description := [] } rfl rfl rfl rfl rfl rfl

/-- C5 (counterexample): launch, navigation and extraction all
succeed, the extracted title is empty, but the teardown invocation
rejects, so the route answers with the 500 response instead of the 404
one the claim requires. -/
theorem c5_counterexample :
    envCloseFail.eval =
      Except.ok { title := [], bullets := [], description := [] } ∧
    envCloseFail.launch = Except.ok () ∧
    envCloseFail.goto = Except.ok () ∧
    fetchAttempt envCloseFail = (FetchResponse.scrapeFailed, 2) ∧
    FetchResponse.scrapeFailed ≠ FetchResponse.notFound :=
  ⟨rfl, rfl, rfl, rfl, by decide⟩

/-- C6 (amended): once the browser is launched, teardown is invoked at
least once and at most twice, and exactly once whenever its first
invocation does not itself reject. -/
theorem c6_amended_teardown_count (env : ScrapeEnv)
    (hlaunch : env.launch = Except.ok ()) :
    (1 ≤ (fetchAttempt env).2 ∧ (fetchAttempt env).2 ≤ 2) ∧
    (env.close1 = Except.ok () → (fetchAttempt env).2 = 1) := by
  rcases hnp : env.newPage with e1 | ⟨⟩ <;>
    rcases hsa : env.setUA with e2 | ⟨⟩ <;>
    rcases hgo : env.goto with e3 | ⟨⟩ <;>
    rcases hev : env.eval with e4 | d <;>
    rcases hc1 : env.close1 with e5 | ⟨⟩ <;>
    rcases hc2 : env.close2 with e6 | ⟨⟩ <;>
    simp [fetchAttempt, catchClose, hlaunch, hnp, hsa, hgo, hev, hc1, hc2,
      apply_ite]

theorem c6_witness : (fetchAttempt envOkEmpty).2 = 1 :=
  (c6_amended_teardown_count envOkEmpty rfl).2 rfl

/-- C6 (counterexample): every step succeeds but the first teardown
invocation rejects, so the catch branch closes the browser a second
time - two invocations, not the exactly-one the claim requires. -/
theorem c6_counterexample :
    envCloseFail.launch = Except.ok () ∧
    (fetchAttempt envCloseFail).2 = 2 ∧ (2 : Nat) ≠ 1 :=
  ⟨rfl, rfl, by decide⟩
